import Mathlib

/-!
Verification of the permissive JSON field-projection library
(`src/lib.rs`: `contained_in`, `simplify_selectors`, `select_values`,
`create_value`, `create_array`, `is_simple`).

Modelling choices:
* Rust `String`/`&str` is modelled as `List Char` (`Str`).  Rust compares
  strings by their UTF-8 bytes; UTF-8 byte order coincides with code-point
  order, so lexicographic comparison on `List Char` by `Char` code points is
  the same order.
* `serde_json::Value` is the mutual inductive family `Json`/`JArr`/`JObj`.
  A `serde_json::Map` is `JObj`, a key-ordered sequence of (key, value)
  entries with unique keys (the `Map` invariant); iteration follows entry
  order.  `value.clone()` is the identity on the model.
* `HashSet<&str>` is modelled as a `List Str` used only through membership,
  filtering and emptiness, which is all the source uses it for (besides
  `remove`, modelled by `removeSel`); duplicate or re-ordered entries are
  observationally irrelevant, which is proved where a claim needs it.
* `Vec::sort` on strings is modelled by insertion sort `sortSels`: both are
  sorts for the total, antisymmetric lexicographic order, and a sorted
  permutation of a list is unique under such an order, so the outputs agree.
* `Vec::dedup_by(|sub, main| contained_in(sub, main))` keeps the first
  element of the vector and drops each later element that satisfies the
  predicate against the most recently kept element (`dedup_by` passes the
  elements in opposite order: `sub` is the candidate, `main` the last kept
  element); this is `dedupPass`.
* `str::trim_start_matches(pat)` repeatedly strips `pat` off the front while
  it is a prefix (stripping nothing for the empty pattern); this is
  `trimStartMatches`, implemented with a fuel counter bounded by the string
  length (each strip removes at least one character).
* `str::get(1..)` is a byte slice: it is `some` of the tail exactly when the
  first character is one byte wide (`get1`); `'.'.len_utf8() == 1`.
* `Map::insert` replaces the value of an existing key.  Within one loop
  iteration of `create_value` only the current document key can be inserted
  (once by the exact-match step, once by the sub-selection step), and
  document keys are unique across iterations, so the net effect of one
  iteration is the last pending insert, `lastPair (entryInserts ...)`.
-/

abbrev Str := List Char

def strOf (s : String) : Str := s.data

/-- Rust `contained_in(subset, main)` from `src/lib.rs`:
`subset.starts_with(main)` and the character right after the prefix,
if any, is the separator `'.'`. -/
def contained_in (subset main : Str) : Bool :=
  main.isPrefixOf subset &&
    (match subset.drop main.length with
     | [] => true
     | c :: _ => c == '.')

/-- Rust `is_simple(key)`: the key contains no separator. -/
def is_simple (k : Str) : Bool := !(k.contains '.')

/-- Lexicographic comparison of strings by code point, the order used by
Rust `Vec::<String>::sort()` (byte order equals code-point order). -/
def strLe : Str → Str → Bool
  | [], _ => true
  | _ :: _, [] => false
  | a :: as, b :: bs => if a < b then true else if b < a then false else strLe as bs

/-- Insertion of one element into a sorted list (helper of `sortSels`). -/
def insert1 (x : Str) : List Str → List Str
  | [] => [x]
  | y :: ys => if strLe x y then x :: y :: ys else y :: insert1 x ys

/-- Model of `selectors.sort()`: insertion sort for `strLe`. -/
def sortSels (l : List Str) : List Str := l.foldr insert1 []

/-- The linear pass of `Vec::dedup_by`: `m` is the most recently kept
element; a candidate contained in `m` is dropped, otherwise it is kept and
becomes the new reference. -/
def goDedup (m : Str) : List Str → List Str
  | [] => []
  | y :: ys => if contained_in y m then goDedup m ys else y :: goDedup y ys

/-- Model of `selectors.dedup_by(|sub, main| contained_in(sub, main))`:
the first element is always kept. -/
def dedupPass : List Str → List Str
  | [] => []
  | a :: r => a :: goDedup a r

/-- Rust `simplify_selectors`: sort, then the dedup pass. -/
def simplify_selectors (selectors : List Str) : List Str :=
  dedupPass (sortSels selectors)

/-- Fuel-driven loop of `trim_start_matches`: strip the pattern while it is
a non-empty prefix.  Each strip removes at least one character, so fuel
`s.length` never runs out before stripping becomes impossible. -/
def tsmGo : Nat → Str → Str → Str
  | 0, _, s => s
  | fuel+1, p, s =>
    if p.isPrefixOf s && !p.isEmpty then tsmGo fuel p (s.drop p.length) else s

/-- Rust `s.trim_start_matches(p)`. -/
def trimStartMatches (p s : Str) : Str := tsmGo s.length p s

/-- Rust `s.get(1..)` (`SPLIT_SYMBOL.len_utf8() == 1`): defined exactly when
byte index 1 is a character boundary, i.e. the first character is one byte
wide. -/
def get1 : Str → Option Str
  | [] => none
  | c :: r => if c.utf8Size = 1 then some r else none

/-- The sub-selector computation of `create_value` for one key:
`selectors.iter().filter(|s| contained_in(s, key))
 .filter_map(|s| s.trim_start_matches(key).get(1..))`. -/
def subSelectors (sels : List Str) (key : Str) : List Str :=
  sels.filterMap (fun s =>
    if contained_in s key then get1 (trimStartMatches key s) else none)

/-- Rust `selectors.remove(key)` on the selector set. -/
def removeSel (sels : List Str) (k : Str) : List Str :=
  sels.filter (fun s => s ≠ k)

mutual
/-- `serde_json::Value`: scalars are opaque to the projector. -/
inductive Json where
  | null
  | bool (b : Bool)
  | num (n : Int)
  | str (s : Str)
  | arr (elems : JArr)
  | obj (fields : JObj)
/-- `Vec<Value>`. -/
inductive JArr where
  | nil
  | cons (hd : Json) (tl : JArr)
/-- `Map<String, Value>` (a `Document`): entries in iteration order. -/
inductive JObj where
  | nil
  | cons (key : Str) (val : Json) (tl : JObj)
end

def JObj.isEmpty : JObj → Bool
  | .nil => true
  | .cons _ _ _ => false

def JArr.isEmpty : JArr → Bool
  | .nil => true
  | .cons _ _ => false

def JArr.length : JArr → Nat
  | .nil => 0
  | .cons _ t => 1 + t.length

/-- The last of a list of pending `Map::insert`s for one key: with unique
document keys, inserting the same key twice in a row leaves exactly the last
value at the position of the first insert. -/
def lastPair : List (Str × Json) → List (Str × Json)
  | [] => []
  | [e] => [e]
  | _ :: r => lastPair r

def consAll : List (Str × Json) → JObj → JObj
  | [], o => o
  | (k, v) :: r, o => .cons k v (consAll r o)

def appendElem : Option Json → JArr → JArr
  | none, t => t
  | some x, t => .cons x t

mutual
/-- Rust `create_value(value, selectors)`: walk the document entries in
order; an exact selector match inserts the full value (and, for a simple
key, consumes the selector and skips the rest of the iteration); otherwise
the non-empty sub-selector set drives recursion into Array/Object values,
inserting only non-empty results.  The two possible inserts of one
iteration target the same key, so `Map::insert` semantics keep the last
(`lastPair`). -/
def create_value : JObj → List Str → JObj
  | .nil, _ => .nil
  | .cons k v rest, sels =>
    if sels.contains k && is_simple k then
      .cons k v (create_value rest (removeSel sels k))
    else
      let subs := subSelectors sels k
      let step2 : List (Str × Json) :=
        if subs.isEmpty then [] else
        match v with
        | .arr a => let a' := create_array a subs
                    if a'.isEmpty then [] else [(k, .arr a')]
        | .obj o => let o' := create_value o subs
                    if o'.isEmpty then [] else [(k, .obj o')]
        | _ => []
      consAll (lastPair ((if sels.contains k then [(k, v)] else []) ++ step2))
        (create_value rest sels)

/-- Rust `create_array(array, selectors)`: filter-map over the elements,
recursing into arrays and objects with the same selector set, dropping
scalars and empty results. -/
def create_array : JArr → List Str → JArr
  | .nil, _ => .nil
  | .cons x xs, sels =>
    appendElem
      (match x with
       | .arr a => let a' := create_array a sels
                   if a'.isEmpty then none else some (Json.arr a')
       | .obj o => let o' := create_value o sels
                   if o'.isEmpty then none else some (Json.obj o')
       | _ => none)
      (create_array xs sels)
end

/-- Rust `select_values`: normalize, then project. -/
def select_values (value : JObj) (selectors : List Str) : JObj :=
  create_value value (simplify_selectors selectors)

/-- The shared value-kind dispatch of the source (`create_value` lines
90-105 and `create_array` lines 116-130): project an Array or Object value
and keep it only when non-empty; scalars contribute nothing. -/
def projElem (sels : List Str) : Json → Option Json
  | .arr a => if (create_array a sels).isEmpty then none
              else some (.arr (create_array a sels))
  | .obj o => if (create_value o sels).isEmpty then none
              else some (.obj (create_value o sels))
  | _ => none

/-- The sub-selection insert (step 2) of one `create_value` iteration:
at most one pending insert, produced by the value-kind dispatch. -/
def entryStep2 (k : Str) (v : Json) (subs : List Str) : List (Str × Json) :=
  if subs.isEmpty then []
  else match projElem subs v with
       | none => []
       | some x => [(k, x)]

/-- The sequence of `Map::insert` operations one `create_value` iteration
performs for document key `k`: the exact-match insert (step 1) followed,
unless a simple exact match `continue`d, by the sub-selection insert
(step 2). -/
def entryInserts (sels : List Str) (k : Str) (v : Json) : List (Str × Json) :=
  if sels.contains k && is_simple k then [(k, v)]
  else (if sels.contains k then [(k, v)] else []) ++
    entryStep2 k v (subSelectors sels k)

/-- First-match lookup in a document, the model of `Map` key access used to
state per-key facts (agrees with map access when keys are unique). -/
def lookupO : JObj → Str → Option Json
  | .nil, _ => none
  | .cons k v t, q => if q = k then some v else lookupO t q

def JObj.hasKey : JObj → Str → Bool
  | .nil, _ => false
  | .cons k _ t, q => q = k || t.hasKey q

mutual
/-- Well-formedness of a value: every nested object has unique keys
(the `serde_json::Map` invariant). -/
def wfVal : Json → Bool
  | .arr a => wfArr a
  | .obj o => wfObj o
  | _ => true
def wfArr : JArr → Bool
  | .nil => true
  | .cons x t => wfVal x && wfArr t
def wfObj : JObj → Bool
  | .nil => true
  | .cons k v t => !(t.hasKey k) && wfVal v && wfObj t
end

mutual
/-- All object keys, at every nesting level, are simple (contain no
separator). -/
def skVal : Json → Bool
  | .arr a => skArr a
  | .obj o => skObj o
  | _ => true
def skArr : JArr → Bool
  | .nil => true
  | .cons x t => skVal x && skArr t
def skObj : JObj → Bool
  | .nil => true
  | .cons k v t => is_simple k && skVal v && skObj t
end

mutual
/-- A value contains (or is) an empty Object or empty Array somewhere. -/
def heVal : Json → Bool
  | .arr a => a.isEmpty || heArr a
  | .obj o => o.isEmpty || heObj o
  | _ => false
def heArr : JArr → Bool
  | .nil => false
  | .cons x t => heVal x || heArr t
/-- Some entry value of the object contains (or is) an empty container. -/
def heObj : JObj → Bool
  | .nil => false
  | .cons _ v t => heVal v || heObj t
end

mutual
/-- Sub-value relation: scalars must be equal, an object is a sub-object
pointwise through key lookup, an array embeds order-preservingly. -/
def subVal : Json → Json → Bool
  | .arr a, .arr b => subArr a b
  | .obj d, .obj e => subObj d e
  | .null, .null => true
  | .bool a, .bool b => a == b
  | .num a, .num b => a == b
  | .str a, .str b => a == b
  | _, _ => false
  termination_by a b => (sizeOf a, sizeOf b)
/-- Order-preserving embedding of arrays modulo `subVal`. -/
def subArr : JArr → JArr → Bool
  | .nil, _ => true
  | .cons _ _, .nil => false
  | .cons x xs, .cons y ys => (subVal x y && subArr xs ys) || subArr (.cons x xs) ys
  termination_by a b => (sizeOf a, sizeOf b)
/-- Every entry of the first document is dominated by a lookup in the
second ("sub-document"). -/
def subObj : JObj → JObj → Bool
  | .nil, _ => true
  | .cons k v r, e =>
    (match lookupO e k with
     | some w => subVal v w
     | none => false) && subObj r e
  termination_by a b => (sizeOf a, sizeOf b)
end

/-- Filter-map over a `JArr`. -/
def filterMapJA (f : Json → Option Json) : JArr → JArr
  | .nil => .nil
  | .cons x t => appendElem (f x) (filterMapJA f t)

/-- The order relation used for `List.Pairwise` sortedness statements. -/
def leP (a b : Str) : Prop := strLe a b = true

/-- Adjacent non-containment along the output of the dedup pass. -/
def noDesc : Str → List Str → Prop
  | _, [] => True
  | m, y :: ys => contained_in y m = false ∧ noDesc y ys

/-- Removal of adjacent duplicates, the canonical form used to show that
the dedup pass only depends on the set of a sorted selector list. -/
def dedupAdj : List Str → List Str
  | [] => []
  | [a] => [a]
  | a :: b :: r => if a = b then dedupAdj (b :: r) else a :: dedupAdj (b :: r)

/-! ### The per-iteration unfolding of `create_value` -/

theorem create_value_cons (k : Str) (v : Json) (rest : JObj) (sels : List Str) :
    create_value (.cons k v rest) sels =
      consAll (lastPair (entryInserts sels k v))
        (create_value rest
          (if sels.contains k && is_simple k then removeSel sels k else sels)) := by
  by_cases h : k ∈ sels ∧ is_simple k = true
  · simp [create_value, entryInserts, h, lastPair, consAll]
  · cases v <;> simp [create_value, entryInserts, entryStep2, projElem, h]
    all_goals
      repeat first
      | rfl
      | split

/-! ### Basic facts about `contained_in` and the lexicographic order -/

theorem contained_in_iff (s k : Str) :
    contained_in s k = true ↔ s = k ∨ ∃ u, s = k ++ '.' :: u := by
  unfold contained_in
  rw [Bool.and_eq_true]
  constructor
  · rintro ⟨h1, h2⟩
    rw [List.isPrefixOf_iff_prefix] at h1
    obtain ⟨t, rfl⟩ := h1
    rw [List.drop_left] at h2
    cases t with
    | nil => left; simp
    | cons c u =>
      right
      refine ⟨u, ?_⟩
      have hc : c = '.' := by simpa using h2
      rw [hc]
  · rintro (rfl | ⟨u, rfl⟩)
    · simp [List.isPrefixOf_iff_prefix]
    · refine ⟨by simp [List.isPrefixOf_iff_prefix], ?_⟩
      rw [List.drop_left]
      simp

theorem contained_in_refl (s : Str) : contained_in s s = true := by
  rw [contained_in_iff]; left; rfl

theorem strLe_nil (l : Str) : strLe [] l = true := by cases l <;> rfl

theorem strLe_cons_iff (a b : Char) (as bs : Str) :
    strLe (a :: as) (b :: bs) = true ↔ a < b ∨ (a = b ∧ strLe as bs = true) := by
  rw [strLe]
  rcases lt_trichotomy a b with h | h | h
  · simp [h]
  · subst h
    simp [lt_irrefl]
  · rw [if_neg (lt_asymm h), if_pos h]
    constructor
    · intro hh
      exact absurd hh (by simp)
    · rintro (h2 | ⟨rfl, _⟩)
      · exact absurd h2 (lt_asymm h)
      · exact absurd h (lt_irrefl _)

theorem strLe_refl (a : Str) : strLe a a = true := by
  induction a with
  | nil => rfl
  | cons c t ih => rw [strLe_cons_iff]; exact Or.inr ⟨rfl, ih⟩

theorem strLe_total (a b : Str) : strLe a b = true ∨ strLe b a = true := by
  induction a generalizing b with
  | nil => exact Or.inl (strLe_nil b)
  | cons x xs ih =>
    cases b with
    | nil => exact Or.inr (strLe_nil _)
    | cons y ys =>
      rw [strLe_cons_iff, strLe_cons_iff]
      rcases lt_trichotomy x y with h | h | h
      · exact Or.inl (Or.inl h)
      · subst h
        rcases ih ys with h2 | h2
        · exact Or.inl (Or.inr ⟨rfl, h2⟩)
        · exact Or.inr (Or.inr ⟨rfl, h2⟩)
      · exact Or.inr (Or.inl h)

theorem strLe_antisymm {a b : Str} (h1 : strLe a b = true) (h2 : strLe b a = true) :
    a = b := by
  induction a generalizing b with
  | nil =>
    cases b with
    | nil => rfl
    | cons y ys => simp [strLe] at h2
  | cons x xs ih =>
    cases b with
    | nil => simp [strLe] at h1
    | cons y ys =>
      rw [strLe_cons_iff] at h1 h2
      rcases h1 with h1 | ⟨rfl, h1⟩
      · rcases h2 with h2 | ⟨h2, _⟩
        · exact absurd h2 (lt_asymm h1)
        · exact absurd h1 (by simp [h2])
      · rcases h2 with h2 | ⟨_, h2⟩
        · exact absurd h2 (lt_irrefl x)
        · rw [ih h1 h2]

theorem strLe_trans : ∀ {a b c : Str}, strLe a b = true → strLe b c = true →
    strLe a c = true
  | [], _, c, _, _ => strLe_nil c
  | _ :: _, [], _, h, _ => by simp [strLe] at h
  | _ :: _, _ :: _, [], _, h => by simp [strLe] at h
  | a :: as, b :: bs, c :: cs, h1, h2 => by
    rw [strLe_cons_iff] at h1 h2 ⊢
    rcases h1 with h1 | ⟨rfl, h1⟩
    · rcases h2 with h2 | ⟨rfl, h2⟩
      · exact Or.inl (lt_trans h1 h2)
      · exact Or.inl h1
    · rcases h2 with h2 | ⟨rfl, h2⟩
      · exact Or.inl h2
      · exact Or.inr ⟨rfl, strLe_trans h1 h2⟩

/-! ### Sorting lemmas -/

theorem insert1_mem (x y : Str) (l : List Str) :
    y ∈ insert1 x l ↔ y = x ∨ y ∈ l := by
  induction l with
  | nil => simp [insert1]
  | cons z zs ih =>
    rw [insert1]
    split
    · simp
    · rw [List.mem_cons, ih, List.mem_cons]
      tauto

theorem sortSels_mem (x : Str) (l : List Str) : x ∈ sortSels l ↔ x ∈ l := by
  induction l with
  | nil => simp [sortSels]
  | cons a t ih =>
    show x ∈ insert1 a (sortSels t) ↔ _
    rw [insert1_mem, ih, List.mem_cons]

theorem insert1_pairwise (x : Str) (l : List Str) (h : l.Pairwise leP) :
    (insert1 x l).Pairwise leP := by
  induction l with
  | nil => simp [insert1, List.pairwise_singleton]
  | cons z zs ih =>
    rw [insert1]
    rw [List.pairwise_cons] at h
    split
    · rename_i hle
      rw [List.pairwise_cons]
      refine ⟨?_, List.pairwise_cons.2 h⟩
      intro b hb
      rcases List.mem_cons.1 hb with rfl | hb
      · exact hle
      · exact strLe_trans hle (h.1 b hb)
    · rename_i hle
      have hzx : strLe z x = true := by
        rcases strLe_total x z with h2 | h2
        · exact absurd h2 hle
        · exact h2
      rw [List.pairwise_cons]
      refine ⟨?_, ih h.2⟩
      intro b hb
      rcases (insert1_mem x b zs).1 hb with rfl | hb
      · exact hzx
      · exact h.1 b hb

theorem sortSels_pairwise (l : List Str) : (sortSels l).Pairwise leP := by
  induction l with
  | nil => exact List.Pairwise.nil
  | cons a t ih => exact insert1_pairwise a (sortSels t) ih

theorem goDedup_sublist (m : Str) (l : List Str) : (goDedup m l).Sublist l := by
  induction l generalizing m with
  | nil => exact List.Sublist.refl _
  | cons y ys ih =>
    rw [goDedup]
    split
    · exact (ih m).cons y
    · exact (ih y).cons₂ y

theorem dedupPass_sublist (l : List Str) : (dedupPass l).Sublist l := by
  cases l with
  | nil => exact List.Sublist.refl _
  | cons a r => exact (goDedup_sublist a r).cons₂ a

theorem goDedup_noDesc (m : Str) (l : List Str) : noDesc m (goDedup m l) := by
  induction l generalizing m with
  | nil => trivial
  | cons y ys ih =>
    rw [goDedup]
    split
    · exact ih m
    · rename_i hc
      exact ⟨Bool.not_eq_true _ ▸ Bool.of_not_eq_true hc, ih y⟩

theorem goDedup_of_noDesc {m : Str} {l : List Str} (h : noDesc m l) :
    goDedup m l = l := by
  induction l generalizing m with
  | nil => rfl
  | cons y ys ih =>
    rw [goDedup, if_neg (by simp [h.1])]
    rw [ih h.2]

theorem dedupPass_idem (l : List Str) : dedupPass (dedupPass l) = dedupPass l := by
  cases l with
  | nil => rfl
  | cons a r =>
    have h : goDedup a (goDedup a r) = goDedup a r :=
      goDedup_of_noDesc (goDedup_noDesc a r)
    show dedupPass (a :: goDedup a r) = a :: goDedup a r
    rw [dedupPass, h]

theorem sortSels_of_pairwise {l : List Str} (h : l.Pairwise leP) : sortSels l = l := by
  induction l with
  | nil => rfl
  | cons a t ih =>
    rw [List.pairwise_cons] at h
    show insert1 a (sortSels t) = a :: t
    rw [ih h.2]
    cases t with
    | nil => rfl
    | cons b t2 =>
      rw [insert1,
        if_pos (show strLe a b = true from h.1 b (List.mem_cons_self b t2))]

/-- Claim C8: normalization is idempotent — `simplify_selectors` applied to
its own output returns that output unchanged, for every selector list. -/
theorem C8_normalization_idempotent (S : List Str) :
    simplify_selectors (simplify_selectors S) = simplify_selectors S := by
  unfold simplify_selectors
  rw [sortSels_of_pairwise
    (List.Pairwise.sublist (dedupPass_sublist (sortSels S)) (sortSels_pairwise S))]
  exact dedupPass_idem _

/-! ### Per-iteration insert lemmas -/

theorem mem_lastPair {l : List (Str × Json)} {p : Str × Json}
    (h : p ∈ lastPair l) : p ∈ l := by
  induction l with
  | nil => simp [lastPair] at h
  | cons a t ih =>
    cases t with
    | nil => simpa [lastPair] using h
    | cons b r =>
      simp only [lastPair] at h
      exact List.mem_cons_of_mem a (ih h)

theorem entryStep2_key (k : Str) (v : Json) (subs : List Str) :
    ∀ p ∈ entryStep2 k v subs, p.1 = k := by
  intro p hp
  rw [entryStep2] at hp
  split at hp
  · simp at hp
  · split at hp
    · simp at hp
    · rw [List.mem_singleton] at hp
      rw [hp]

theorem entryStep2_length_le (k : Str) (v : Json) (subs : List Str) :
    (entryStep2 k v subs).length ≤ 1 := by
  rw [entryStep2]
  split
  · simp
  · split <;> simp

theorem entryInserts_key (sels : List Str) (k : Str) (v : Json) :
    ∀ p ∈ entryInserts sels k v, p.1 = k := by
  intro p hp
  rw [entryInserts] at hp
  split at hp
  · rw [List.mem_singleton] at hp
    rw [hp]
  · rw [List.mem_append] at hp
    rcases hp with hp | hp
    · split at hp
      · rw [List.mem_singleton] at hp
        rw [hp]
      · simp at hp
    · exact entryStep2_key k v _ p hp

theorem lookupO_consAll_skip (l : List (Str × Json)) (t : JObj) (q : Str)
    (h : ∀ p ∈ l, p.1 ≠ q) : lookupO (consAll l t) q = lookupO t q := by
  induction l with
  | nil => rfl
  | cons a r ih =>
    obtain ⟨k0, v0⟩ := a
    show lookupO (.cons k0 v0 (consAll r t)) q = lookupO t q
    rw [lookupO, if_neg (fun hq => h (k0, v0) (List.mem_cons_self _ _) hq.symm)]
    exact ih (fun p hp => h p (List.mem_cons_of_mem _ hp))

theorem removeSel_mem (sels : List Str) (k1 x : Str) :
    x ∈ removeSel sels k1 ↔ x ∈ sels ∧ x ≠ k1 := by
  unfold removeSel
  simp [List.mem_filter]

theorem removeSel_contains (sels : List Str) (k1 k : Str) (hk : k ≠ k1) :
    (removeSel sels k1).contains k = sels.contains k := by
  by_cases hc : k ∈ sels
  · have h1 : (removeSel sels k1).contains k = true :=
      List.elem_iff.mpr ((removeSel_mem sels k1 k).mpr ⟨hc, hk⟩)
    have h2 : sels.contains k = true := List.elem_iff.mpr hc
    rw [h1, h2]
  · have h1 : k ∉ removeSel sels k1 := fun hm => hc ((removeSel_mem _ _ _).1 hm).1
    have e1 : (removeSel sels k1).contains k = false := by
      cases h : (removeSel sels k1).contains k
      · rfl
      · exact absurd (List.elem_iff.mp h) h1
    have e2 : sels.contains k = false := by
      cases h : sels.contains k
      · rfl
      · exact absurd (List.elem_iff.mp h) hc
    rw [e1, e2]

/-- Lookup of a simple, exactly selected key returns the full input value. -/
theorem cv_lookup_simple : ∀ (doc : JObj) (sels : List Str) (k : Str) (v : Json),
    is_simple k = true → sels.contains k = true → lookupO doc k = some v →
    lookupO (create_value doc sels) k = some v
  | .nil, _, k, v, _, _, hl => by simp [lookupO] at hl
  | .cons k1 v1 rest, sels, k, v, hs, hm, hl => by
    rw [create_value_cons]
    by_cases hk : k = k1
    · subst hk
      rw [lookupO, if_pos rfl] at hl
      have hcond : (sels.contains k && is_simple k) = true := by rw [hm, hs]; rfl
      rw [entryInserts, if_pos hcond]
      show lookupO (.cons k v1 _) k = some v
      rw [lookupO, if_pos rfl]
      exact hl
    · rw [lookupO, if_neg hk] at hl
      rw [lookupO_consAll_skip _ _ _ (fun p hp => by
        rw [entryInserts_key sels k1 v1 p (mem_lastPair hp)]
        exact fun hq => hk hq.symm)]
      refine cv_lookup_simple rest _ k v hs ?_ hl
      split
      · rw [removeSel_contains sels k1 k hk]
        exact hm
      · exact hm

/-! ### Claim C4 -/

/-- Claim C4 is refuted: for the dotted document key `"a.b"` and the
selector set `{"a.b", "a.b.x"}` containing both the exact match and a
descendant, one loop iteration of `create_value` performs two inserts for
the same output key (the exact-match insert and the sub-selection insert),
so per-key exclusivity fails. -/
theorem C4_counterexample :
    (entryInserts [strOf "a.b", strOf "a.b.x"] (strOf "a.b")
        (Json.obj (.cons (strOf "x") (.num 1)
          (.cons (strOf "y") (.num 2) .nil)))).length = 2 := by rfl

/-- Claim C4 (amended): per-key exclusivity holds for simple keys — when
the document key contains no separator, one loop iteration of
`create_value` inserts a value for that key at most once (the exact-match
branch `continue`s before the sub-selection branch can also insert).  For
complex (dotted) keys both branches can insert, the second silently
replacing the first. -/
theorem C4_amended_per_key_exclusivity (sels : List Str) (k : Str) (v : Json)
    (h : is_simple k = true) : (entryInserts sels k v).length ≤ 1 := by
  rw [entryInserts]
  split
  · simp
  · rename_i hc
    have hcf : sels.contains k = false := by
      cases hcc : sels.contains k
      · rfl
      · exact absurd (by rw [hcc, h]; rfl) hc
    rw [hcf]
    simpa using entryStep2_length_le k v (subSelectors sels k)

theorem C4_amended_per_key_exclusivity_witness :
    is_simple (strOf "age") = true
    ∧ (entryInserts [strOf "age", strOf "name"] (strOf "age")
        (Json.num 8)).length ≤ 1 :=
  ⟨rfl, C4_amended_per_key_exclusivity [strOf "age", strOf "name"] (strOf "age")
    (Json.num 8) rfl⟩

/-! ### Claim C2 -/

/-- Claim C2 is refuted for dotted (complex) keys: with document
`{"a.b": {"x": 1, "y": 2}}` and the selector set `{"a.b", "a.b.x"}`
(bypassing normalization, as the claim allows), the output value for the
exactly matched key `"a.b"` is the projected `{"x": 1}` — the sub-selection
insert overwrites the exact-match clone — not the full input value. -/
theorem C2_counterexample :
    lookupO (create_value
        (.cons (strOf "a.b") (Json.obj (.cons (strOf "x") (.num 1)
          (.cons (strOf "y") (.num 2) .nil))) .nil)
        [strOf "a.b", strOf "a.b.x"]) (strOf "a.b")
      = some (Json.obj (.cons (strOf "x") (.num 1) .nil))
    ∧ Json.obj (.cons (strOf "x") (.num 1) .nil)
        ≠ Json.obj (.cons (strOf "x") (.num 1) (.cons (strOf "y") (.num 2) .nil)) :=
  ⟨rfl, by simp⟩

/-- Claim C2 (amended): ancestor dominance holds for simple keys — whenever
a selector exactly equals a simple document key, the projection's output
for that key is the full input value, no matter what other (descendant)
selectors are present; and in particular
`select_values doc ["race", "race.name"] = select_values doc ["race"]`
for every document.  For dotted keys the sub-selection insert can
overwrite the exact match. -/
theorem C2_amended_ancestor_dominance :
    (∀ (doc : JObj) (sels : List Str) (k : Str) (v : Json),
        is_simple k = true → sels.contains k = true → lookupO doc k = some v →
        lookupO (create_value doc sels) k = some v)
    ∧ ∀ doc : JObj,
        select_values doc [strOf "race", strOf "race.name"]
          = select_values doc [strOf "race"] :=
  ⟨fun doc sels k v hs hm hl => cv_lookup_simple doc sels k v hs hm hl,
   fun _ => rfl⟩

theorem C2_amended_ancestor_dominance_witness :
    is_simple (strOf "race") = true
    ∧ [strOf "race", strOf "race.name"].contains (strOf "race") = true
    ∧ lookupO (create_value
        (.cons (strOf "race")
          (Json.obj (.cons (strOf "name") (.str (strOf "bernese")) .nil)) .nil)
        [strOf "race", strOf "race.name"]) (strOf "race")
      = some (Json.obj (.cons (strOf "name") (.str (strOf "bernese")) .nil)) :=
  ⟨rfl, rfl, C2_amended_ancestor_dominance.1
    (.cons (strOf "race")
      (Json.obj (.cons (strOf "name") (.str (strOf "bernese")) .nil)) .nil)
    [strOf "race", strOf "race.name"] (strOf "race")
    (Json.obj (.cons (strOf "name") (.str (strOf "bernese")) .nil))
    rfl rfl rfl⟩

/-! ### Claim C7 -/

theorem create_array_eq_filterMap : ∀ (a : JArr) (sels : List Str),
    create_array a sels = filterMapJA (projElem sels) a
  | .nil, _ => rfl
  | .cons x xs, sels => by
    have ih := create_array_eq_filterMap xs sels
    cases x <;> simp [create_array, filterMapJA, projElem, appendElem, ih]

theorem appendElem_length (o : Option Json) (t : JArr) :
    JArr.length (appendElem o t) ≤ 1 + JArr.length t := by
  cases o <;> simp [appendElem, JArr.length]

theorem filterMapJA_length : ∀ (f : Json → Option Json) (a : JArr),
    JArr.length (filterMapJA f a) ≤ JArr.length a
  | _, .nil => le_refl _
  | f, .cons x t => by
    rw [filterMapJA]
    have h1 := appendElem_length (f x) (filterMapJA f t)
    have h2 := filterMapJA_length f t
    have h3 : JArr.length (JArr.cons x t) = 1 + JArr.length t := rfl
    omega

theorem create_array_length_le (a : JArr) (sels : List Str) :
    JArr.length (create_array a sels) ≤ JArr.length a := by
  rw [create_array_eq_filterMap]
  exact filterMapJA_length _ a

/-- Claim C7: array projection is an order-preserving filter-map — each
Object element is projected with the same selector set, each Array element
recursively, scalars are dropped (`projElem` maps them to `none`), empty
projections are excluded, order is preserved, and the output length is at
most the input length. -/
theorem C7_array_filter_map (a : JArr) (sels : List Str) :
    create_array a sels = filterMapJA (projElem sels) a
    ∧ JArr.length (create_array a sels) ≤ JArr.length a :=
  ⟨create_array_eq_filterMap a sels, create_array_length_le a sels⟩

/-! ### Counterexamples for claims C1, C3, C5, C6, C10 -/

/-- Claim C1 is refuted: the input `["a", "a b", "a.x"]` is already sorted
(space sorts before `'.'`), the linear dedup pass keeps all three
selectors, and the retained `"a.x"` is a strict descendant of the retained
`"a"` — the output is not an antichain. -/
theorem C1_counterexample :
    simplify_selectors [strOf "a", strOf "a b", strOf "a.x"]
      = [strOf "a", strOf "a b", strOf "a.x"]
    ∧ contained_in (strOf "a.x") (strOf "a") = true
    ∧ strOf "a.x" ≠ strOf "a" :=
  ⟨rfl, rfl, by decide⟩

/-- Claim C3 is refuted: for `{"a.b": {"x": 1, "y": 2}}`, enlarging the
selector set from `{"a.b"}` to `{"a.b", "a.b!c", "a.b.x"}` (all three
survive normalization because `"a.b!c"` sorts between the ancestor and its
descendant) shrinks the output value at key `"a.b"` from the full object
to `{"x": 1}` — adding selectors removed previously selected content, so
the first output is not a sub-document of the second. -/
theorem C3_counterexample :
    select_values (.cons (strOf "a.b") (Json.obj (.cons (strOf "x") (.num 1)
        (.cons (strOf "y") (.num 2) .nil))) .nil) [strOf "a.b"]
      = .cons (strOf "a.b") (Json.obj (.cons (strOf "x") (.num 1)
          (.cons (strOf "y") (.num 2) .nil))) .nil
    ∧ select_values (.cons (strOf "a.b") (Json.obj (.cons (strOf "x") (.num 1)
        (.cons (strOf "y") (.num 2) .nil))) .nil)
        [strOf "a.b", strOf "a.b!c", strOf "a.b.x"]
      = .cons (strOf "a.b") (Json.obj (.cons (strOf "x") (.num 1) .nil)) .nil
    ∧ subObj
        (select_values (.cons (strOf "a.b") (Json.obj (.cons (strOf "x") (.num 1)
          (.cons (strOf "y") (.num 2) .nil))) .nil) [strOf "a.b"])
        (select_values (.cons (strOf "a.b") (Json.obj (.cons (strOf "x") (.num 1)
          (.cons (strOf "y") (.num 2) .nil))) .nil)
          [strOf "a.b", strOf "a.b!c", strOf "a.b.x"]) = false := by
  refine ⟨rfl, rfl, ?_⟩
  have h1 : select_values (.cons (strOf "a.b") (Json.obj (.cons (strOf "x") (.num 1)
      (.cons (strOf "y") (.num 2) .nil))) .nil) [strOf "a.b"]
      = .cons (strOf "a.b") (Json.obj (.cons (strOf "x") (.num 1)
          (.cons (strOf "y") (.num 2) .nil))) .nil := rfl
  have h2 : select_values (.cons (strOf "a.b") (Json.obj (.cons (strOf "x") (.num 1)
      (.cons (strOf "y") (.num 2) .nil))) .nil)
      [strOf "a.b", strOf "a.b!c", strOf "a.b.x"]
      = .cons (strOf "a.b") (Json.obj (.cons (strOf "x") (.num 1) .nil)) .nil := rfl
  rw [h1, h2]
  simp [subObj, subVal, lookupO, strOf]

/-- Claim C5 is refuted: for the key `".a"` (which begins with the
separator) the selector `".a.a"` is a proper descendant with suffix `"a"`,
yet `trim_start_matches` strips the key twice, the remainder is empty, and
no sub-selector at all is derived — instead of the claimed `["a"]`. -/
theorem C5_counterexample :
    contained_in (strOf ".a.a") (strOf ".a") = true
    ∧ strOf ".a.a" ≠ strOf ".a"
    ∧ subSelectors [strOf ".a.a"] (strOf ".a") = []
    ∧ (strOf ".a.a").drop ((strOf ".a").length + 1) = strOf "a" :=
  ⟨rfl, by decide, rfl, rfl⟩

/-- Claim C6 is refuted: the exact-match branch clones the input value
verbatim, so `select_values {"a": {}} ["a"]` returns `{"a": {}}`, which
contains an empty Object below the root. -/
theorem C6_counterexample :
    select_values (.cons (strOf "a") (Json.obj .nil) .nil) [strOf "a"]
      = .cons (strOf "a") (Json.obj .nil) .nil
    ∧ heObj (select_values (.cons (strOf "a") (Json.obj .nil) .nil) [strOf "a"])
      = true :=
  ⟨rfl, rfl⟩

/-- Claim C10 is refuted at the key `"."`: the trailing-separator selector
`".."` strips repeatedly to the empty string, derives no sub-selector, and
selects nothing — instead of the claimed `{".": {"": v}}`. -/
theorem C10_counterexample :
    select_values (.cons (strOf ".") (Json.obj (.cons [] Json.null .nil)) .nil)
        [strOf ".."]
      = .nil
    ∧ (JObj.nil : JObj)
        ≠ .cons (strOf ".") (Json.obj (.cons [] Json.null .nil)) .nil :=
  ⟨rfl, by simp⟩

/-! ### Trim lemmas and claims C5, C10 -/

theorem tsmGo_no_strip (n : Nat) (p s : Str)
    (h : (p.isPrefixOf s && !p.isEmpty) = false) : tsmGo n p s = s := by
  cases n with
  | zero => rfl
  | succ m => simp [tsmGo, h]

theorem tsm_empty_pat (s : Str) : trimStartMatches [] s = s :=
  tsmGo_no_strip _ _ _ (by simp)

theorem tsm_strip_once (k rest : Str) (hk : k ≠ [])
    (hnp : k.isPrefixOf rest = false) :
    trimStartMatches k (k ++ rest) = rest := by
  cases k with
  | nil => exact absurd rfl hk
  | cons c k1 =>
    show tsmGo ((c :: k1) ++ rest).length (c :: k1) ((c :: k1) ++ rest) = rest
    have hL : ((c :: k1) ++ rest).length = (k1.length + rest.length) + 1 := by
      simp [List.length_append]
    rw [hL, tsmGo,
      if_pos (by simp [List.isPrefixOf_iff_prefix]),
      List.drop_left]
    exact tsmGo_no_strip _ _ _ (by rw [hnp]; rfl)

theorem drop_append_sep (k u : Str) :
    ((k ++ '.' :: u).drop (k.length + 1)) = u := by
  induction k with
  | nil => rfl
  | cons c k1 ih => simp [ih]

theorem isPrefixOf_cons_dot_false (c : Char) (k1 u : Str) (hc : c ≠ '.') :
    (c :: k1).isPrefixOf ('.' :: u) = false := by
  cases h : (c :: k1).isPrefixOf ('.' :: u)
  · rfl
  · exfalso
    rw [List.isPrefixOf_iff_prefix] at h
    rcases h with ⟨t, ht⟩
    injection ht with h1 _
    exact hc h1

theorem subSel_elem_char (k s : Str) (hk : k.head? ≠ some '.') :
    (if contained_in s k then get1 (trimStartMatches k s) else none)
      = if contained_in s k = true ∧ s ≠ k then some (s.drop (k.length + 1))
        else none := by
  by_cases hc : contained_in s k = true
  · rw [if_pos hc]
    rcases (contained_in_iff s k).1 hc with heq | ⟨u, rfl⟩
    · rw [if_neg (fun h => h.2 heq)]
      subst heq
      cases s with
      | nil => rfl
      | cons c k1 =>
        have h1 : trimStartMatches (c :: k1) ((c :: k1) ++ []) = [] :=
          tsm_strip_once (c :: k1) [] (by simp) rfl
        rw [List.append_nil] at h1
        rw [h1]
        rfl
    · have hs : (k ++ '.' :: u) ≠ k := by
        intro h
        have hlen := congrArg List.length h
        simp at hlen
      rw [if_pos ⟨hc, hs⟩, drop_append_sep]
      cases k with
      | nil =>
        show get1 (trimStartMatches [] ('.' :: u)) = some u
        rw [tsm_empty_pat]
        rfl
      | cons c k1 =>
        have hc' : c ≠ '.' := fun h => hk (by rw [h]; rfl)
        rw [tsm_strip_once (c :: k1) ('.' :: u) (by simp)
          (isPrefixOf_cons_dot_false c k1 u hc')]
        rfl
  · have hcf : contained_in s k = false := by
      cases h : contained_in s k
      · rfl
      · exact absurd h hc
    rw [if_neg (by rw [hcf]; simp), if_neg (fun h => hc h.1)]

/-- Claim C5 (amended): for every key `k` that does not begin with the
separator, the derived sub-selectors for `k` are exactly, for each
selector `s` that is a proper descendant of `k` per the boundary rule
(including the trailing-separator case `s = k ++ "."`, which derives the
empty sub-selector), the string `s` with the prefix `k` and one separator
stripped off the front; selectors that are not proper descendants of `k`
contribute nothing.  For keys beginning with the separator,
`trim_start_matches` can strip the key more than once and derive a shorter
sub-selector or none at all. -/
theorem C5_amended_sub_selector_derivation (sels : List Str) (k : Str)
    (hk : k.head? ≠ some '.') :
    subSelectors sels k
      = sels.filterMap (fun s =>
          if contained_in s k = true ∧ s ≠ k then some (s.drop (k.length + 1))
          else none) := by
  unfold subSelectors
  exact List.filterMap_congr (fun s _ => subSel_elem_char k s hk)

theorem C5_amended_sub_selector_derivation_witness :
    (strOf "race").head? ≠ some '.'
    ∧ subSelectors [strOf "race.name", strOf "race"] (strOf "race")
        = [strOf "race.name", strOf "race"].filterMap (fun s =>
            if contained_in s (strOf "race") = true ∧ s ≠ strOf "race"
            then some (s.drop ((strOf "race").length + 1)) else none) :=
  ⟨by decide, C5_amended_sub_selector_derivation
    [strOf "race.name", strOf "race"] (strOf "race") (by decide)⟩

theorem isPrefixOf_dot_false (k : Str) (hk0 : k ≠ []) (hk1 : k ≠ ['.']) :
    k.isPrefixOf ['.'] = false := by
  cases h : k.isPrefixOf ['.']
  · rfl
  · exfalso
    rw [List.isPrefixOf_iff_prefix] at h
    rcases h with ⟨t, ht⟩
    cases k with
    | nil => exact hk0 rfl
    | cons c k1 =>
      injection ht with h1 h2
      subst h1
      cases k1 with
      | nil => exact hk1 rfl
      | cons d k2 => simp at h2

theorem subSel_trailing (k : Str) (hk : k ≠ ['.']) :
    subSelectors [k ++ ['.']] k = [[]] := by
  have hcont : contained_in (k ++ ['.']) k = true := by
    rw [contained_in_iff]
    right
    exact ⟨[], rfl⟩
  have htsm : trimStartMatches k (k ++ ['.']) = ['.'] := by
    cases k with
    | nil => exact tsm_empty_pat _
    | cons c k1 =>
      exact tsm_strip_once (c :: k1) ['.'] (by simp)
        (isPrefixOf_dot_false (c :: k1) (by simp) hk)
  have hfx : (if contained_in (k ++ ['.']) k
      then get1 (trimStartMatches k (k ++ ['.'])) else none) = some [] := by
    rw [if_pos hcont, htsm]
    rfl
  simp [subSelectors, hfx]

/-- Claim C10 (amended): for every key `k` other than the one-character key
`"."`, when `k` maps to an Object, the single trailing-separator selector
`k ++ "."` derives the empty string as the sole sub-selector for `k`, and
inside the nested Object the empty-string selector exact-matches only the
key that is literally the empty string: projecting
`{k: {"": v, "x": w}}` with `[k ++ "."]` yields `{k: {"": v}}`.  For
`k = "."` the repeated stripping of `trim_start_matches` derives no
sub-selector at all and nothing is selected. -/
theorem C10_amended_trailing_separator (k : Str) (hk : k ≠ ['.']) (v w : Json) :
    select_values (.cons k (Json.obj (.cons [] v (.cons (strOf "x") w .nil))) .nil)
        [k ++ ['.']]
      = .cons k (Json.obj (.cons [] v .nil)) .nil
    ∧ subSelectors [k ++ ['.']] k = [[]] := by
  have hsub := subSel_trailing k hk
  refine ⟨?_, hsub⟩
  have hsimp : simplify_selectors [k ++ ['.']] = [k ++ ['.']] := rfl
  have hcont : [k ++ ['.']].contains k = false := by
    cases h : [k ++ ['.']].contains k
    · rfl
    · exfalso
      have hm := List.elem_iff.mp h
      rw [List.mem_singleton] at hm
      have hlen := congrArg List.length hm
      simp at hlen
  have hx : create_value (.cons (strOf "x") w .nil) [] = .nil := by
    rw [create_value_cons]
    rfl
  have hinner : create_value (.cons [] v (.cons (strOf "x") w .nil)) [[]]
      = .cons [] v .nil := by
    rw [create_value_cons]
    show consAll [([], v)] (create_value (.cons (strOf "x") w .nil) []) = _
    rw [hx]
    rfl
  have hcf : ([k ++ ['.']].contains k && is_simple k) = false := by
    rw [hcont]
    rfl
  show create_value (.cons k (Json.obj (.cons [] v (.cons (strOf "x") w .nil))) .nil)
      (simplify_selectors [k ++ ['.']]) = _
  rw [hsimp, create_value_cons, entryInserts, hcf, hcont, hsub, entryStep2]
  simp only [Bool.false_eq_true, if_false, List.nil_append]
  have hpe : projElem [[]] (Json.obj (.cons [] v (.cons (strOf "x") w .nil)))
      = some (Json.obj (.cons [] v .nil)) := by
    rw [projElem, hinner]
    rfl
  rw [hpe]
  rfl

theorem C10_amended_trailing_separator_witness :
    strOf "race" ≠ ['.']
    ∧ (select_values
        (.cons (strOf "race")
          (Json.obj (.cons [] (Json.num 1) (.cons (strOf "x") (Json.num 2) .nil)))
          .nil)
        [strOf "race" ++ ['.']]
      = .cons (strOf "race") (Json.obj (.cons [] (Json.num 1) .nil)) .nil
    ∧ subSelectors [strOf "race" ++ ['.']] (strOf "race") = [[]]) :=
  ⟨by decide, C10_amended_trailing_separator (strOf "race") (by decide)
    (Json.num 1) (Json.num 2)⟩

/-! ### Claim C1: the antichain property of the dedup pass -/

theorem prefix_of_contained {s k : Str} (h : contained_in s k = true) : k <+: s := by
  rcases (contained_in_iff s k).1 h with rfl | ⟨u, rfl⟩
  · exact List.prefix_rfl
  · exact ⟨'.' :: u, rfl⟩

theorem strLe_of_startsWith {y x : Str} (h : y <+: x) : strLe y x = true := by
  obtain ⟨t, rfl⟩ := h
  induction y with
  | nil => exact strLe_nil _
  | cons c y1 ih => exact (strLe_cons_iff _ _ _ _).2 (Or.inr ⟨rfl, ih⟩)

/-- If `d` is a descendant of `a` and `s` sorts between `a` and `d`, and no
character of `s` is below the separator, then `s` is also a descendant of
`a`.  This is the (conditional) sort-order invariant the linear dedup pass
relies on. -/
theorem between_contained (a : Str) : ∀ (s d : Str),
    (∀ c ∈ s, ¬ c < '.') → strLe a s = true → strLe s d = true →
    contained_in d a = true → contained_in s a = true := by
  induction a with
  | nil =>
    intro s d hs h1 h2 hd
    rcases (contained_in_iff d []).1 hd with rfl | ⟨u, hdu⟩
    · cases s with
      | nil => exact contained_in_refl []
      | cons c s1 => simp [strLe] at h2
    · cases s with
      | nil => exact contained_in_refl []
      | cons c s1 =>
        rw [List.nil_append] at hdu
        subst hdu
        rw [strLe_cons_iff] at h2
        have hc : ¬ c < '.' := hs c (List.mem_cons_self _ _)
        rcases h2 with h2 | ⟨rfl, _⟩
        · exact absurd h2 hc
        · exact (contained_in_iff _ _).2 (Or.inr ⟨s1, rfl⟩)
  | cons x a1 ih =>
    intro s d hs h1 h2 hd
    obtain ⟨d1, rfl, hd1⟩ : ∃ d1, d = x :: d1 ∧ contained_in d1 a1 = true := by
      rcases (contained_in_iff d (x :: a1)).1 hd with rfl | ⟨u, rfl⟩
      · exact ⟨a1, rfl, contained_in_refl a1⟩
      · exact ⟨a1 ++ '.' :: u, rfl, (contained_in_iff _ _).2 (Or.inr ⟨u, rfl⟩)⟩
    cases s with
    | nil => simp [strLe] at h1
    | cons y s1 =>
      rw [strLe_cons_iff] at h1 h2
      rcases h1 with h1 | ⟨rfl, h1⟩
      · rcases h2 with h2 | ⟨rfl, _⟩
        · exact absurd h2 (lt_asymm h1)
        · exact absurd h1 (lt_irrefl _)
      · rcases h2 with h2 | ⟨_, h2⟩
        · exact absurd h2 (lt_irrefl _)
        · have hcc := ih s1 d1 (fun c hc => hs c (List.mem_cons_of_mem _ hc)) h1 h2 hd1
          rw [contained_in_iff] at hcc ⊢
          rcases hcc with rfl | ⟨u, rfl⟩
          · exact Or.inl rfl
          · exact Or.inr ⟨u, rfl⟩

theorem goDedup_not_contained (m : Str) (l : List Str)
    (hs : ∀ s ∈ l, ∀ c ∈ s, ¬ c < '.')
    (hsort : ∀ s ∈ l, strLe m s = true)
    (hpair : l.Pairwise leP) :
    ∀ z ∈ goDedup m l, contained_in z m = false := by
  induction l generalizing m with
  | nil =>
    intro z hz
    simp [goDedup] at hz
  | cons y ys ih =>
    intro z hz
    rw [goDedup] at hz
    rw [List.pairwise_cons] at hpair
    split at hz
    · exact ih m (fun s h => hs s (List.mem_cons_of_mem _ h))
        (fun s h => hsort s (List.mem_cons_of_mem _ h)) hpair.2 z hz
    · rename_i hcy
      rcases List.mem_cons.1 hz with rfl | hz2
      · cases h : contained_in z m
        · rfl
        · exact absurd h hcy
      · cases h : contained_in z m
        · rfl
        · exfalso
          have hzys : z ∈ ys := (goDedup_sublist y ys).subset hz2
          have h1 : strLe m y = true := hsort y (List.mem_cons_self _ _)
          have h2 : strLe y z = true := hpair.1 z hzys
          exact hcy (between_contained m y z (hs y (List.mem_cons_self _ _)) h1 h2 h)

theorem goDedup_pairwise_notdesc (m : Str) (l : List Str)
    (hs : ∀ s ∈ l, ∀ c ∈ s, ¬ c < '.')
    (hsort : ∀ s ∈ l, strLe m s = true)
    (hpair : l.Pairwise leP) :
    (goDedup m l).Pairwise (fun a b => contained_in b a = false) := by
  induction l generalizing m with
  | nil => exact List.Pairwise.nil
  | cons y ys ih =>
    rw [goDedup]
    rw [List.pairwise_cons] at hpair
    split
    · exact ih m (fun s h => hs s (List.mem_cons_of_mem _ h))
        (fun s h => hsort s (List.mem_cons_of_mem _ h)) hpair.2
    · rw [List.pairwise_cons]
      constructor
      · intro b hb
        exact goDedup_not_contained y ys
          (fun s h => hs s (List.mem_cons_of_mem _ h)) hpair.1 hpair.2 b hb
      · exact ih y (fun s h => hs s (List.mem_cons_of_mem _ h)) hpair.1 hpair.2

theorem dedupPass_pairwise_notdesc (s : List Str)
    (hs : ∀ x ∈ s, ∀ c ∈ x, ¬ c < '.') (hpair : s.Pairwise leP) :
    (dedupPass s).Pairwise (fun a b => contained_in b a = false) := by
  cases s with
  | nil => exact List.Pairwise.nil
  | cons a t =>
    rw [List.pairwise_cons] at hpair
    show (a :: goDedup a t).Pairwise _
    rw [List.pairwise_cons]
    constructor
    · intro b hb
      exact goDedup_not_contained a t
        (fun x h => hs x (List.mem_cons_of_mem _ h)) hpair.1 hpair.2 b hb
    · exact goDedup_pairwise_notdesc a t
        (fun x h => hs x (List.mem_cons_of_mem _ h)) hpair.1 hpair.2

theorem antichain_of : ∀ (r : List Str),
    r.Pairwise (fun a b => contained_in b a = false ∧ leP a b) →
    ∀ x ∈ r, ∀ y ∈ r, contained_in x y = true → x = y := by
  intro r hcomb
  induction hcomb with
  | nil =>
    intro x hx
    simp at hx
  | cons h1 _ ih =>
    intro x hx y hy hcont
    rcases List.mem_cons.1 hx with rfl | hx2 <;> rcases List.mem_cons.1 hy with rfl | hy2
    · rfl
    · have hp := h1 y hy2
      have hxy : x = y :=
        strLe_antisymm hp.2 (strLe_of_startsWith (prefix_of_contained hcont))
      subst hxy
      exact absurd (contained_in_refl x) (by simp [hp.1])
    · have hp := h1 x hx2
      exact absurd hcont (by simp [hp.1])
    · exact ih x hx2 y hy2 hcont

theorem goDedup_cover (m : Str) (l : List Str) :
    ∀ x ∈ l, (∃ r ∈ goDedup m l, contained_in x r = true)
      ∨ contained_in x m = true := by
  induction l generalizing m with
  | nil =>
    intro x hx
    simp at hx
  | cons y ys ih =>
    intro x hx
    rw [goDedup]
    split
    · rename_i hcy
      rcases List.mem_cons.1 hx with rfl | hx2
      · exact Or.inr hcy
      · exact ih m x hx2
    · rcases List.mem_cons.1 hx with rfl | hx2
      · exact Or.inl ⟨x, List.mem_cons_self _ _, contained_in_refl x⟩
      · rcases ih y x hx2 with ⟨r, hr, hcr⟩ | hc
        · exact Or.inl ⟨r, List.mem_cons_of_mem _ hr, hcr⟩
        · exact Or.inl ⟨y, List.mem_cons_self _ _, hc⟩

theorem dedupPass_cover (l : List Str) :
    ∀ x ∈ l, ∃ r ∈ dedupPass l, contained_in x r = true := by
  cases l with
  | nil =>
    intro x hx
    simp at hx
  | cons a t =>
    intro x hx
    show ∃ r ∈ a :: goDedup a t, _
    rcases List.mem_cons.1 hx with rfl | hx2
    · exact ⟨x, List.mem_cons_self _ _, contained_in_refl x⟩
    · rcases goDedup_cover a t x hx2 with ⟨r, hr, hcr⟩ | hc
      · exact ⟨r, List.mem_cons_of_mem _ hr, hcr⟩
      · exact ⟨a, List.mem_cons_self _ _, hc⟩

/-- Claim C1 (amended): when no character of any selector is below the
separator `'.'` (true in particular for alphanumeric path segments), the
normalized set is a minimal covering set: no retained selector is a strict
descendant of another retained selector, and every input selector is a
descendant of (or equal to) some retained selector.  Without the character
restriction, a sibling such as `"a b"` can sort between `"a"` and `"a.x"`
and the single linear pass then retains the descendant `"a.x"`. -/
theorem C1_amended_minimal_cover (l : List Str)
    (h : ∀ s ∈ l, ∀ c ∈ s, ¬ c < '.') :
    (∀ x ∈ simplify_selectors l, ∀ y ∈ simplify_selectors l,
        contained_in x y = true → x = y)
    ∧ ∀ s ∈ l, ∃ m ∈ simplify_selectors l, contained_in s m = true := by
  have hs : ∀ x ∈ sortSels l, ∀ c ∈ x, ¬ c < '.' :=
    fun x hx => h x ((sortSels_mem x l).1 hx)
  have hpair := sortSels_pairwise l
  constructor
  · have hnd := dedupPass_pairwise_notdesc (sortSels l) hs hpair
    have hle : (dedupPass (sortSels l)).Pairwise leP :=
      List.Pairwise.sublist (dedupPass_sublist _) hpair
    exact antichain_of _ (hnd.and hle)
  · intro s hsl
    exact dedupPass_cover (sortSels l) s ((sortSels_mem s l).2 hsl)

theorem C1_amended_minimal_cover_witness :
    (∀ s ∈ [strOf "person.name", strOf "person", strOf "person.dog"],
        ∀ c ∈ s, ¬ c < '.')
    ∧ (∀ x ∈ simplify_selectors
          [strOf "person.name", strOf "person", strOf "person.dog"],
        ∀ y ∈ simplify_selectors
          [strOf "person.name", strOf "person", strOf "person.dog"],
        contained_in x y = true → x = y)
    ∧ ∀ s ∈ [strOf "person.name", strOf "person", strOf "person.dog"],
        ∃ m ∈ simplify_selectors
          [strOf "person.name", strOf "person", strOf "person.dog"],
          contained_in s m = true :=
  ⟨by decide,
   (C1_amended_minimal_cover _ (by decide)).1,
   (C1_amended_minimal_cover _ (by decide)).2⟩

/-! ### Claim C9: selector lists have set semantics -/

theorem goDedup_dedupAdj (s : List Str) :
    ∀ m, goDedup m (dedupAdj s) = goDedup m s := by
  induction s using dedupAdj.induct with
  | case1 => intro m; rfl
  | case2 a => intro m; rfl
  | case3 b r ih =>
    intro m
    rw [dedupAdj, if_pos rfl, ih m]
    by_cases hc : contained_in b m = true
    · rw [goDedup, if_pos hc, goDedup, if_pos hc, goDedup, if_pos hc]
    · rw [goDedup, if_neg hc, goDedup, if_neg hc, goDedup,
        if_pos (contained_in_refl b)]
  | case4 a b r hab ih =>
    intro m
    rw [dedupAdj, if_neg hab]
    conv_rhs => rw [goDedup]
    by_cases hc : contained_in a m = true
    · rw [goDedup, if_pos hc, ih m, if_pos hc]
    · rw [goDedup, if_neg hc, ih a, if_neg hc]

theorem dedupPass_dedupAdj (s : List Str) :
    dedupPass (dedupAdj s) = dedupPass s := by
  induction s using dedupAdj.induct with
  | case1 => rfl
  | case2 a => rfl
  | case3 b r ih =>
    rw [dedupAdj, if_pos rfl, ih]
    rw [dedupPass, dedupPass, goDedup, if_pos (contained_in_refl b)]
  | case4 a b r hab ih =>
    rw [dedupAdj, if_neg hab]
    rw [dedupPass, dedupPass, goDedup_dedupAdj (b :: r) a]

theorem dedupAdj_sublist (s : List Str) : (dedupAdj s).Sublist s := by
  induction s using dedupAdj.induct with
  | case1 => exact List.Sublist.refl _
  | case2 a => exact List.Sublist.refl _
  | case3 b r ih =>
    rw [dedupAdj, if_pos rfl]
    exact ih.cons b
  | case4 a b r hab ih =>
    rw [dedupAdj, if_neg hab]
    exact ih.cons₂ a

theorem mem_dedupAdj_of_mem (s : List Str) : ∀ x, x ∈ s → x ∈ dedupAdj s := by
  induction s using dedupAdj.induct with
  | case1 =>
    intro x hx
    simp at hx
  | case2 a =>
    intro x hx
    exact hx
  | case3 b r ih =>
    intro x hx
    rw [dedupAdj, if_pos rfl]
    rcases List.mem_cons.1 hx with rfl | h2
    · exact ih x (List.mem_cons_self _ _)
    · exact ih x h2
  | case4 a b r hab ih =>
    intro x hx
    rw [dedupAdj, if_neg hab]
    rcases List.mem_cons.1 hx with rfl | h2
    · exact List.mem_cons_self _ _
    · exact List.mem_cons_of_mem _ (ih x h2)

theorem dedupAdj_mem (s : List Str) (x : Str) : x ∈ dedupAdj s ↔ x ∈ s :=
  ⟨fun h => (dedupAdj_sublist s).subset h, mem_dedupAdj_of_mem s x⟩

theorem dedupAdj_nodup (s : List Str) : s.Pairwise leP → (dedupAdj s).Nodup := by
  induction s using dedupAdj.induct with
  | case1 =>
    intro _
    exact List.nodup_nil
  | case2 a =>
    intro _
    exact List.nodup_singleton a
  | case3 b r ih =>
    intro hpair
    rw [dedupAdj, if_pos rfl]
    exact ih (List.pairwise_cons.1 hpair).2
  | case4 a b r hab ih =>
    intro hpair
    rw [dedupAdj, if_neg hab]
    rw [List.nodup_cons]
    rw [List.pairwise_cons] at hpair
    refine ⟨?_, ih hpair.2⟩
    intro hmem
    have h2 : a ∈ b :: r := (dedupAdj_sublist _).subset hmem
    rcases List.mem_cons.1 h2 with rfl | h3
    · exact hab rfl
    · have hba : leP b a := (List.pairwise_cons.1 hpair.2).1 a h3
      have hab2 : leP a b := hpair.1 b (List.mem_cons_self _ _)
      exact hab (strLe_antisymm hab2 hba)

theorem sorted_nodup_ext : ∀ (s t : List Str),
    s.Pairwise leP → t.Pairwise leP → s.Nodup → t.Nodup →
    (∀ x, x ∈ s ↔ x ∈ t) → s = t := by
  intro s
  induction s with
  | nil =>
    intro t _ _ _ _ hmem
    cases t with
    | nil => rfl
    | cons b t1 => exact absurd ((hmem b).2 (List.mem_cons_self _ _)) (by simp)
  | cons a s1 ih =>
    intro t hs ht hns hnt hmem
    cases t with
    | nil => exact absurd ((hmem a).1 (List.mem_cons_self _ _)) (by simp)
    | cons b t1 =>
      rw [List.pairwise_cons] at hs ht
      rw [List.nodup_cons] at hns hnt
      have hab : a = b := by
        rcases List.mem_cons.1 ((hmem a).1 (List.mem_cons_self _ _)) with h1 | h1
        · exact h1
        · rcases List.mem_cons.1 ((hmem b).2 (List.mem_cons_self _ _)) with h2 | h2
          · exact h2.symm
          · exact strLe_antisymm (hs.1 b h2) (ht.1 a h1)
      subst hab
      have hmem2 : ∀ x, x ∈ s1 ↔ x ∈ t1 := by
        intro x
        constructor
        · intro hx
          rcases List.mem_cons.1 ((hmem x).1 (List.mem_cons_of_mem _ hx)) with rfl | h2
          · exact absurd hx hns.1
          · exact h2
        · intro hx
          rcases List.mem_cons.1 ((hmem x).2 (List.mem_cons_of_mem _ hx)) with rfl | h2
          · exact absurd hx hnt.1
          · exact h2
      rw [ih t1 hs.2 ht.2 hns.2 hnt.2 hmem2]

theorem simplify_selectors_ext (l1 l2 : List Str)
    (h : ∀ x, x ∈ l1 ↔ x ∈ l2) :
    simplify_selectors l1 = simplify_selectors l2 := by
  unfold simplify_selectors
  rw [← dedupPass_dedupAdj (sortSels l1), ← dedupPass_dedupAdj (sortSels l2)]
  congr 1
  apply sorted_nodup_ext
  · exact List.Pairwise.sublist (dedupAdj_sublist _) (sortSels_pairwise l1)
  · exact List.Pairwise.sublist (dedupAdj_sublist _) (sortSels_pairwise l2)
  · exact dedupAdj_nodup _ (sortSels_pairwise l1)
  · exact dedupAdj_nodup _ (sortSels_pairwise l2)
  · intro x
    rw [dedupAdj_mem, dedupAdj_mem, sortSels_mem, sortSels_mem]
    exact h x

/-- Claim C9: selector lists have set semantics — two selector lists with
the same members (regardless of order and duplicates) give exactly equal
`select_values` outputs on every document. -/
theorem C9_selector_set_semantics (doc : JObj) (l1 l2 : List Str)
    (h : ∀ x, x ∈ l1 ↔ x ∈ l2) :
    select_values doc l1 = select_values doc l2 := by
  unfold select_values
  rw [simplify_selectors_ext l1 l2 h]

theorem C9_selector_set_semantics_witness :
    select_values (.cons (strOf "age") (Json.num 8) .nil)
        [strOf "age", strOf "age", strOf "name"]
      = select_values (.cons (strOf "age") (Json.num 8) .nil)
        [strOf "name", strOf "age"] :=
  C9_selector_set_semantics (.cons (strOf "age") (Json.num 8) .nil)
    [strOf "age", strOf "age", strOf "name"] [strOf "name", strOf "age"]
    (fun x => by simp; tauto)

/-! ### Claim C6: empty pruning -/

theorem heObj_consAll (l : List (Str × Json)) (t : JObj)
    (hl : ∀ p ∈ l, heVal p.2 = false) (ht : heObj t = false) :
    heObj (consAll l t) = false := by
  induction l with
  | nil => exact ht
  | cons a r ih =>
    obtain ⟨k0, v0⟩ := a
    show heObj (.cons k0 v0 (consAll r t)) = false
    rw [heObj, hl (k0, v0) (List.mem_cons_self _ _),
      ih (fun p hp => hl p (List.mem_cons_of_mem _ hp))]
    rfl

theorem create_array_cons (x : Json) (xs : JArr) (sels : List Str) :
    create_array (.cons x xs) sels
      = appendElem (projElem sels x) (create_array xs sels) := by
  rw [create_array_eq_filterMap, filterMapJA, ← create_array_eq_filterMap]

theorem entryInserts_no_empty (sels : List Str) (k : Str) (v : Json)
    (hv : heVal v = false)
    (hstep : ∀ x, projElem (subSelectors sels k) v = some x → heVal x = false) :
    ∀ p ∈ entryInserts sels k v, heVal p.2 = false := by
  intro p hp
  rw [entryInserts] at hp
  split at hp
  · rw [List.mem_singleton] at hp
    rw [hp]
    exact hv
  · rw [List.mem_append] at hp
    rcases hp with hp | hp
    · split at hp
      · rw [List.mem_singleton] at hp
        rw [hp]
        exact hv
      · simp at hp
    · rw [entryStep2] at hp
      split at hp
      · simp at hp
      · split at hp
        · simp at hp
        · rename_i x hx
          rw [List.mem_singleton] at hp
          rw [hp]
          exact hstep x hx

mutual
theorem cv_no_empty : ∀ (d : JObj) (sels : List Str),
    heObj d = false → heObj (create_value d sels) = false
  | .nil, sels, _ => by
    rw [create_value]
    rfl
  | .cons k v rest, sels, h => by
    rw [heObj, Bool.or_eq_false_iff] at h
    rw [create_value_cons]
    apply heObj_consAll
    · intro p hp
      refine entryInserts_no_empty sels k v h.1 ?_ p (mem_lastPair hp)
      intro x hx
      exact projElem_no_empty (subSelectors sels k) v h.1 x hx
    · exact cv_no_empty rest _ h.2
  termination_by d _ => sizeOf d

theorem ca_no_empty : ∀ (a : JArr) (sels : List Str),
    heArr a = false → heArr (create_array a sels) = false
  | .nil, sels, _ => by
    rw [create_array]
    rfl
  | .cons x xs, sels, h => by
    rw [heArr, Bool.or_eq_false_iff] at h
    rw [create_array_cons]
    cases hpe : projElem sels x with
    | none =>
      show heArr (create_array xs sels) = false
      exact ca_no_empty xs sels h.2
    | some y =>
      show heArr (.cons y (create_array xs sels)) = false
      rw [heArr, Bool.or_eq_false_iff]
      exact ⟨projElem_no_empty sels x h.1 y hpe, ca_no_empty xs sels h.2⟩
  termination_by a _ => sizeOf a

theorem projElem_no_empty : ∀ (sels : List Str) (v : Json),
    heVal v = false → ∀ x, projElem sels v = some x → heVal x = false
  | sels, .arr a, hv, x, hx => by
    rw [projElem] at hx
    split at hx
    · simp at hx
    · rename_i hne
      injection hx with hx
      subst hx
      rw [heVal, Bool.or_eq_false_iff]
      constructor
      · cases hie : (create_array a sels).isEmpty
        · rfl
        · exact absurd hie hne
      · rw [heVal, Bool.or_eq_false_iff] at hv
        exact ca_no_empty a sels hv.2
  | sels, .obj o, hv, x, hx => by
    rw [projElem] at hx
    split at hx
    · simp at hx
    · rename_i hne
      injection hx with hx
      subst hx
      rw [heVal, Bool.or_eq_false_iff]
      constructor
      · cases hie : (create_value o sels).isEmpty
        · rfl
        · exact absurd hie hne
      · rw [heVal, Bool.or_eq_false_iff] at hv
        exact cv_no_empty o sels hv.2
  | sels, .null, _, x, hx => by
    simp [projElem] at hx
  | sels, .bool b, _, x, hx => by
    simp [projElem] at hx
  | sels, .num n, _, x, hx => by
    simp [projElem] at hx
  | sels, .str s1, _, x, hx => by
    simp [projElem] at hx
  termination_by _ v _ _ _ => sizeOf v
end

/-- Claim C6 (amended): containers built by projection are never empty —
if no value of the input document contains an empty Object or Array, then
no value of the output does, at any nesting depth.  As stated, the claim
fails only because the exact-match branch clones input values verbatim,
so an empty container already present in the input survives below the
root. -/
theorem C6_amended_empty_pruning (doc : JObj) (sels : List Str)
    (h : heObj doc = false) : heObj (create_value doc sels) = false :=
  cv_no_empty doc sels h

theorem C6_amended_empty_pruning_witness :
    heObj (.cons (strOf "race")
      (Json.obj (.cons (strOf "name") (.str (strOf "b")) .nil)) .nil) = false
    ∧ heObj (create_value
        (.cons (strOf "race")
          (Json.obj (.cons (strOf "name") (.str (strOf "b")) .nil)) .nil)
        [strOf "race.name"]) = false :=
  ⟨rfl, C6_amended_empty_pruning
    (.cons (strOf "race")
      (Json.obj (.cons (strOf "name") (.str (strOf "b")) .nil)) .nil)
    [strOf "race.name"] rfl⟩

/-! ### Claim C3: support lemmas for monotonicity -/

theorem subObj_cons_right : ∀ (x : JObj) (k : Str) (v : Json) (t : JObj),
    subObj x t = true → x.hasKey k = false → subObj x (.cons k v t) = true
  | .nil, _, _, _, _, _ => by rw [subObj]
  | .cons k1 v1 r, k, v, t, h, hk => by
    rw [subObj, Bool.and_eq_true] at h
    rw [JObj.hasKey, Bool.or_eq_false_iff] at hk
    rw [subObj, Bool.and_eq_true]
    refine ⟨?_, subObj_cons_right r k v t h.2 hk.2⟩
    rw [lookupO, if_neg (fun hq => of_decide_eq_false hk.1 hq.symm)]
    exact h.1

theorem subObj_consAll_right (x : JObj) (l : List (Str × Json)) (t : JObj)
    (h : subObj x t = true) (hk : ∀ p ∈ l, x.hasKey p.1 = false) :
    subObj x (consAll l t) = true := by
  induction l with
  | nil => exact h
  | cons a r ih =>
    obtain ⟨k0, v0⟩ := a
    show subObj x (.cons k0 v0 (consAll r t)) = true
    exact subObj_cons_right x k0 v0 (consAll r t)
      (ih (fun p hp => hk p (List.mem_cons_of_mem _ hp)))
      (hk (k0, v0) (List.mem_cons_self _ _))

theorem subObj_consAll (l : List (Str × Json)) (t : JObj) (e : JObj)
    (hl : ∀ p ∈ l, ∃ w, lookupO e p.1 = some w ∧ subVal p.2 w = true)
    (ht : subObj t e = true) : subObj (consAll l t) e = true := by
  induction l with
  | nil => exact ht
  | cons a r ih =>
    obtain ⟨k0, v0⟩ := a
    show subObj (.cons k0 v0 (consAll r t)) e = true
    rw [subObj, Bool.and_eq_true]
    obtain ⟨w, hw, hsv⟩ := hl (k0, v0) (List.mem_cons_self _ _)
    refine ⟨?_, ih (fun p hp => hl p (List.mem_cons_of_mem _ hp))⟩
    rw [hw]
    exact hsv

theorem subArr_cons_right : ∀ (x : JArr) (y : Json) (t : JArr),
    subArr x t = true → subArr x (.cons y t) = true
  | .nil, _, _, _ => by rw [subArr]
  | .cons x1 xs, y, t, h => by
    rw [subArr, Bool.or_eq_true]
    right
    exact h

theorem subObj_nonempty (x e : JObj) (h : subObj x e = true)
    (hx : x.isEmpty = false) : e.isEmpty = false := by
  cases x with
  | nil => simp [JObj.isEmpty] at hx
  | cons k v r =>
    cases e with
    | nil =>
      rw [subObj, Bool.and_eq_true] at h
      have h1 := h.1
      rw [lookupO] at h1
      simp at h1
    | cons k2 v2 t2 => rfl

theorem subArr_nonempty (x e : JArr) (h : subArr x e = true)
    (hx : x.isEmpty = false) : e.isEmpty = false := by
  cases x with
  | nil => simp [JArr.isEmpty] at hx
  | cons x1 xs =>
    cases e with
    | nil =>
      rw [subArr] at h
      simp at h
    | cons y ys => rfl

mutual
theorem subVal_refl : ∀ (v : Json), wfVal v = true → subVal v v = true
  | .null, _ => by rw [subVal]
  | .bool b, _ => by
    rw [subVal]
    simp
  | .num n, _ => by
    rw [subVal]
    simp
  | .str s1, _ => by
    rw [subVal]
    simp
  | .arr a, h => by
    rw [subVal]
    exact subArr_refl a (by rw [wfVal] at h; exact h)
  | .obj o, h => by
    rw [subVal]
    exact subObj_refl o (by rw [wfVal] at h; exact h)
  termination_by v _ => sizeOf v

theorem subArr_refl : ∀ (a : JArr), wfArr a = true → subArr a a = true
  | .nil, _ => by rw [subArr]
  | .cons x t, h => by
    rw [wfArr, Bool.and_eq_true] at h
    rw [subArr, Bool.or_eq_true]
    left
    rw [Bool.and_eq_true]
    exact ⟨subVal_refl x h.1, subArr_refl t h.2⟩
  termination_by a _ => sizeOf a

theorem subObj_refl : ∀ (d : JObj), wfObj d = true → subObj d d = true
  | .nil, _ => by rw [subObj]
  | .cons k v t, h => by
    rw [wfObj, Bool.and_eq_true, Bool.and_eq_true] at h
    obtain ⟨⟨hkey, hv⟩, ht⟩ := h
    rw [subObj, Bool.and_eq_true]
    constructor
    · rw [lookupO, if_pos rfl]
      exact subVal_refl v hv
    · refine subObj_cons_right t k v t (subObj_refl t ht) ?_
      cases hh : t.hasKey k
      · rfl
      · rw [hh] at hkey
        simp at hkey
  termination_by d _ => sizeOf d
end

theorem hasKey_consAll (l : List (Str × Json)) (t : JObj) (q : Str)
    (h : (consAll l t).hasKey q = true) :
    (∃ p ∈ l, p.1 = q) ∨ t.hasKey q = true := by
  induction l with
  | nil => exact Or.inr h
  | cons a r ih =>
    obtain ⟨k0, v0⟩ := a
    rw [show consAll ((k0, v0) :: r) t = .cons k0 v0 (consAll r t) from rfl,
      JObj.hasKey, Bool.or_eq_true] at h
    rcases h with h | h
    · exact Or.inl ⟨(k0, v0), List.mem_cons_self _ _, (of_decide_eq_true h).symm⟩
    · rcases ih h with ⟨p, hp, hpq⟩ | h2
      · exact Or.inl ⟨p, List.mem_cons_of_mem _ hp, hpq⟩
      · exact Or.inr h2

theorem cv_hasKey : ∀ (d : JObj) (sels : List Str) (q : Str),
    (create_value d sels).hasKey q = true → d.hasKey q = true
  | .nil, sels, q, h => by
    rw [create_value] at h
    exact h
  | .cons k v rest, sels, q, h => by
    rw [create_value_cons] at h
    rw [JObj.hasKey, Bool.or_eq_true]
    rcases hasKey_consAll _ _ q h with ⟨p, hp, hpq⟩ | h2
    · left
      have hpk := entryInserts_key sels k v p (mem_lastPair hp)
      rw [← hpq, hpk]
      simp
    · right
      exact cv_hasKey rest _ q h2

theorem mem_entryStep2 (k : Str) (v : Json) (subs : List Str)
    (p : Str × Json) (hp : p ∈ entryStep2 k v subs) :
    subs.isEmpty = false ∧ projElem subs v = some p.2 := by
  rw [entryStep2] at hp
  split at hp
  · simp at hp
  · rename_i hne
    split at hp
    · simp at hp
    · rename_i x hx
      rw [List.mem_singleton] at hp
      subst hp
      refine ⟨?_, hx⟩
      cases hie : subs.isEmpty
      · rfl
      · exact absurd hie hne

theorem entryStep2_of_some (k : Str) (v : Json) (subs : List Str) (x : Json)
    (hne : subs.isEmpty = false) (hx : projElem subs v = some x) :
    entryStep2 k v subs = [(k, x)] := by
  rw [entryStep2, if_neg (by rw [hne]; simp), hx]

theorem entryInserts_val (sels : List Str) (k : Str) (v : Json) :
    ∀ p ∈ entryInserts sels k v,
      p.2 = v ∨ projElem (subSelectors sels k) v = some p.2 := by
  intro p hp
  rw [entryInserts] at hp
  split at hp
  · rw [List.mem_singleton] at hp
    rw [hp]
    exact Or.inl rfl
  · rw [List.mem_append] at hp
    rcases hp with hp | hp
    · split at hp
      · rw [List.mem_singleton] at hp
        rw [hp]
        exact Or.inl rfl
      · simp at hp
    · exact Or.inr (mem_entryStep2 k v _ p hp).2

theorem subSelectors_mono (S T : List Str) (k : Str) (h : ∀ s ∈ S, s ∈ T) :
    ∀ x ∈ subSelectors S k, x ∈ subSelectors T k := by
  intro x hx
  unfold subSelectors at hx ⊢
  rw [List.mem_filterMap] at hx ⊢
  obtain ⟨s, hs, hfs⟩ := hx
  exact ⟨s, h s hs, hfs⟩

theorem subSelectors_nonempty_mono (S T : List Str) (k : Str)
    (h : ∀ s ∈ S, s ∈ T) (hne : (subSelectors S k).isEmpty = false) :
    (subSelectors T k).isEmpty = false := by
  cases hS : subSelectors S k with
  | nil => rw [hS] at hne; simp at hne
  | cons x xs =>
    have : x ∈ subSelectors T k :=
      subSelectors_mono S T k h x (by rw [hS]; exact List.mem_cons_self _ _)
    cases hT : subSelectors T k with
    | nil => rw [hT] at this; simp at this
    | cons y ys => rfl

theorem lastPair_eq_self : ∀ (l : List (Str × Json)), l.length ≤ 1 → lastPair l = l
  | [], _ => rfl
  | [_], _ => rfl
  | _ :: _ :: _, h => by simp at h

theorem create_value_cons_simple (k : Str) (v : Json) (rest : JObj)
    (sels : List Str) (hc : (sels.contains k && is_simple k) = true) :
    create_value (.cons k v rest) sels
      = .cons k v (create_value rest (removeSel sels k)) := by
  rw [create_value_cons, entryInserts, if_pos hc, if_pos hc]
  rfl

theorem create_value_cons_nosel (k : Str) (v : Json) (rest : JObj)
    (sels : List Str) (hc : sels.contains k = false) :
    create_value (.cons k v rest) sels
      = consAll (entryStep2 k v (subSelectors sels k))
          (create_value rest sels) := by
  have hcc : (sels.contains k && is_simple k) = false := by
    rw [hc]
    rfl
  rw [create_value_cons, entryInserts,
    if_neg (show ¬((sels.contains k && is_simple k) = true) by rw [hcc]; simp),
    if_neg (show ¬(sels.contains k = true) by rw [hc]; simp),
    if_neg (show ¬((sels.contains k && is_simple k) = true) by rw [hcc]; simp),
    List.nil_append,
    lastPair_eq_self _ (entryStep2_length_le k v _)]

mutual
theorem projElem_sub : ∀ (sels : List Str) (v x : Json),
    wfVal v = true → projElem sels v = some x → subVal x v = true
  | sels, .arr a, x, hv, hx => by
    rw [projElem] at hx
    split at hx
    · simp at hx
    · injection hx with hx
      subst hx
      rw [subVal]
      exact ca_sub a sels (by rw [wfVal] at hv; exact hv)
  | sels, .obj o, x, hv, hx => by
    rw [projElem] at hx
    split at hx
    · simp at hx
    · injection hx with hx
      subst hx
      rw [subVal]
      exact cv_sub o sels (by rw [wfVal] at hv; exact hv)
  | sels, .null, x, _, hx => by simp [projElem] at hx
  | sels, .bool b, x, _, hx => by simp [projElem] at hx
  | sels, .num n, x, _, hx => by simp [projElem] at hx
  | sels, .str s1, x, _, hx => by simp [projElem] at hx
  termination_by _ v _ _ _ => sizeOf v

theorem cv_sub : ∀ (d : JObj) (S : List Str),
    wfObj d = true → subObj (create_value d S) d = true
  | .nil, S, _ => by rw [create_value, subObj]
  | .cons k v rest, S, h => by
    rw [wfObj, Bool.and_eq_true, Bool.and_eq_true] at h
    obtain ⟨⟨hkey, hv⟩, hrest⟩ := h
    have hkf : rest.hasKey k = false := by
      cases hh : rest.hasKey k
      · rfl
      · rw [hh] at hkey
        simp at hkey
    rw [create_value_cons]
    apply subObj_consAll
    · intro p hp
      have hpk := entryInserts_key S k v p (mem_lastPair hp)
      refine ⟨v, ?_, ?_⟩
      · rw [hpk, lookupO, if_pos rfl]
      · rcases entryInserts_val S k v p (mem_lastPair hp) with hpv | hpv
        · rw [hpv]
          exact subVal_refl v hv
        · exact projElem_sub _ v p.2 hv hpv
    · refine subObj_cons_right _ k v rest (cv_sub rest _ hrest) ?_
      cases hh : (create_value rest
          (if S.contains k && is_simple k then removeSel S k else S)).hasKey k
      · rfl
      · exact absurd (cv_hasKey rest _ k hh) (by rw [hkf]; simp)
  termination_by d _ _ => sizeOf d

theorem ca_sub : ∀ (a : JArr) (S : List Str),
    wfArr a = true → subArr (create_array a S) a = true
  | .nil, S, _ => by rw [create_array, subArr]
  | .cons x xs, S, h => by
    rw [wfArr, Bool.and_eq_true] at h
    rw [create_array_cons]
    cases hpe : projElem S x with
    | none =>
      show subArr (create_array xs S) (.cons x xs) = true
      exact subArr_cons_right _ x xs (ca_sub xs S h.2)
    | some y =>
      show subArr (.cons y (create_array xs S)) (.cons x xs) = true
      rw [subArr, Bool.or_eq_true]
      left
      rw [Bool.and_eq_true]
      exact ⟨projElem_sub S x y h.1 hpe, ca_sub xs S h.2⟩
  termination_by a _ _ => sizeOf a

theorem projElem_mono : ∀ (S T : List Str) (x : Json),
    wfVal x = true → skVal x = true → (∀ s ∈ S, s ∈ T) →
    ∀ y, projElem S x = some y → ∃ z, projElem T x = some z ∧ subVal y z = true
  | S, T, .arr a, hw, hsk, hsub, y, hy => by
    rw [projElem] at hy
    split at hy
    · simp at hy
    · rename_i hne
      injection hy with hy
      subst hy
      have hmono := ca_mono a S T (by rw [wfVal] at hw; exact hw)
        (by rw [skVal] at hsk; exact hsk) hsub
      have hneS : (create_array a S).isEmpty = false := by
        cases hh : (create_array a S).isEmpty
        · rfl
        · exact absurd hh hne
      have hneT := subArr_nonempty _ _ hmono hneS
      refine ⟨Json.arr (create_array a T), ?_, ?_⟩
      · rw [projElem, if_neg (by rw [hneT]; simp)]
      · rw [subVal]
        exact hmono
  | S, T, .obj o, hw, hsk, hsub, y, hy => by
    rw [projElem] at hy
    split at hy
    · simp at hy
    · rename_i hne
      injection hy with hy
      subst hy
      have hmono := cv_mono o S T (by rw [wfVal] at hw; exact hw)
        (by rw [skVal] at hsk; exact hsk) hsub
      have hneS : (create_value o S).isEmpty = false := by
        cases hh : (create_value o S).isEmpty
        · rfl
        · exact absurd hh hne
      have hneT := subObj_nonempty _ _ hmono hneS
      refine ⟨Json.obj (create_value o T), ?_, ?_⟩
      · rw [projElem, if_neg (by rw [hneT]; simp)]
      · rw [subVal]
        exact hmono
  | S, T, .null, _, _, _, y, hy => by simp [projElem] at hy
  | S, T, .bool b, _, _, _, y, hy => by simp [projElem] at hy
  | S, T, .num n, _, _, _, y, hy => by simp [projElem] at hy
  | S, T, .str s1, _, _, _, y, hy => by simp [projElem] at hy
  termination_by _ _ x _ _ _ _ _ => sizeOf x

theorem cv_mono : ∀ (d : JObj) (S T : List Str),
    wfObj d = true → skObj d = true → (∀ s ∈ S, s ∈ T) →
    subObj (create_value d S) (create_value d T) = true
  | .nil, S, T, _, _, _ => by rw [create_value, subObj]
  | .cons k v rest, S, T, hw, hsk, hsub => by
    rw [wfObj, Bool.and_eq_true, Bool.and_eq_true] at hw
    obtain ⟨⟨hkey, hv⟩, hwrest⟩ := hw
    rw [skObj, Bool.and_eq_true, Bool.and_eq_true] at hsk
    obtain ⟨⟨hks, hsv⟩, hskrest⟩ := hsk
    have hkf : rest.hasKey k = false := by
      cases hh : rest.hasKey k
      · rfl
      · rw [hh] at hkey
        simp at hkey
    by_cases hkS : k ∈ S
    · have hkT : k ∈ T := hsub k hkS
      have hcS : (S.contains k && is_simple k) = true := by
        have h1 : S.contains k = true := List.elem_iff.mpr hkS
        rw [h1, hks]
        rfl
      have hcT : (T.contains k && is_simple k) = true := by
        have h1 : T.contains k = true := List.elem_iff.mpr hkT
        rw [h1, hks]
        rfl
      rw [create_value_cons_simple k v rest S hcS,
        create_value_cons_simple k v rest T hcT]
      rw [subObj, Bool.and_eq_true]
      constructor
      · rw [lookupO, if_pos rfl]
        exact subVal_refl v hv
      · have hss : ∀ s ∈ removeSel S k, s ∈ removeSel T k := by
          intro s hs
          rw [removeSel_mem] at hs ⊢
          exact ⟨hsub s hs.1, hs.2⟩
        refine subObj_cons_right _ k v _
          (cv_mono rest (removeSel S k) (removeSel T k) hwrest hskrest hss) ?_
        cases hh : (create_value rest (removeSel S k)).hasKey k
        · rfl
        · exact absurd (cv_hasKey rest _ k hh) (by rw [hkf]; simp)
    · have hcS : S.contains k = false := by
        cases hh : S.contains k
        · rfl
        · exact absurd (List.elem_iff.mp hh) hkS
      rw [create_value_cons_nosel k v rest S hcS]
      by_cases hkT : k ∈ T
      · have hcT : (T.contains k && is_simple k) = true := by
          have h1 : T.contains k = true := List.elem_iff.mpr hkT
          rw [h1, hks]
          rfl
        rw [create_value_cons_simple k v rest T hcT]
        apply subObj_consAll
        · intro p hp
          obtain ⟨_, hpe⟩ := mem_entryStep2 k v _ p hp
          have hpk := entryStep2_key k v _ p hp
          refine ⟨v, ?_, ?_⟩
          · rw [hpk, lookupO, if_pos rfl]
          · exact projElem_sub _ v p.2 hv hpe
        · have hss : ∀ s ∈ S, s ∈ removeSel T k := by
            intro s hs
            rw [removeSel_mem]
            exact ⟨hsub s hs, fun hsk2 => hkS (hsk2 ▸ hs)⟩
          refine subObj_cons_right _ k v _
            (cv_mono rest S (removeSel T k) hwrest hskrest hss) ?_
          cases hh : (create_value rest S).hasKey k
          · rfl
          · exact absurd (cv_hasKey rest S k hh) (by rw [hkf]; simp)
      · have hcT : T.contains k = false := by
          cases hh : T.contains k
          · rfl
          · exact absurd (List.elem_iff.mp hh) hkT
        rw [create_value_cons_nosel k v rest T hcT]
        have hkabs : (create_value rest S).hasKey k = false := by
          cases hh : (create_value rest S).hasKey k
          · rfl
          · exact absurd (cv_hasKey rest S k hh) (by rw [hkf]; simp)
        apply subObj_consAll
        · intro p hp
          obtain ⟨hne, hpe⟩ := mem_entryStep2 k v _ p hp
          have hpk := entryStep2_key k v _ p hp
          obtain ⟨z, hz, hsvz⟩ := projElem_mono (subSelectors S k)
            (subSelectors T k) v hv hsv (subSelectors_mono S T k hsub) p.2 hpe
          have hTne := subSelectors_nonempty_mono S T k hsub hne
          refine ⟨z, ?_, hsvz⟩
          rw [entryStep2_of_some k v _ z hTne hz, hpk]
          show lookupO (.cons k z (create_value rest T)) k = some z
          rw [lookupO, if_pos rfl]
        · apply subObj_consAll_right _ _ _
            (cv_mono rest S T hwrest hskrest hsub)
          intro p hp
          rw [entryStep2_key k v _ p hp]
          exact hkabs
  termination_by d _ _ _ _ _ => sizeOf d

theorem ca_mono : ∀ (a : JArr) (S T : List Str),
    wfArr a = true → skArr a = true → (∀ s ∈ S, s ∈ T) →
    subArr (create_array a S) (create_array a T) = true
  | .nil, S, T, _, _, _ => by rw [create_array, subArr]
  | .cons x xs, S, T, hw, hsk, hsub => by
    rw [wfArr, Bool.and_eq_true] at hw
    rw [skArr, Bool.and_eq_true] at hsk
    rw [create_array_cons, create_array_cons]
    cases hpeS : projElem S x with
    | none =>
      cases hpeT : projElem T x with
      | none =>
        show subArr (create_array xs S) (create_array xs T) = true
        exact ca_mono xs S T hw.2 hsk.2 hsub
      | some z =>
        show subArr (create_array xs S) (.cons z (create_array xs T)) = true
        exact subArr_cons_right _ z _ (ca_mono xs S T hw.2 hsk.2 hsub)
    | some y =>
      obtain ⟨z, hz, hsvz⟩ := projElem_mono S T x hw.1 hsk.1 hsub y hpeS
      rw [hz]
      show subArr (.cons y (create_array xs S)) (.cons z (create_array xs T)) = true
      rw [subArr, Bool.or_eq_true]
      left
      rw [Bool.and_eq_true]
      exact ⟨hsvz, ca_mono xs S T hw.2 hsk.2 hsub⟩
  termination_by a _ _ _ _ _ => sizeOf a
end

/-- Claim C3 (amended): the projector is monotone in the selector set for
documents whose keys are simple at every nesting level (and well-formed,
i.e. unique keys per object): every content selected by `S1` is still
present when projecting with `S1 ∪ S2` — the first output is a
sub-document of the second.  For documents with dotted keys the claim
fails: a descendant selector added to an exact dotted match overwrites the
full clone with a narrower projection. -/
theorem C3_amended_monotonicity (doc : JObj) (S1 S2 : List Str)
    (hwf : wfObj doc = true) (hsk : skObj doc = true) :
    subObj (create_value doc S1) (create_value doc (S1 ++ S2)) = true :=
  cv_mono doc S1 (S1 ++ S2) hwf hsk (fun _ hs => List.mem_append_left S2 hs)

theorem C3_amended_monotonicity_witness :
    wfObj (.cons (strOf "race")
      (Json.obj (.cons (strOf "name") (.str (strOf "bernese"))
        (.cons (strOf "size") (.str (strOf "80cm")) .nil))) .nil) = true
    ∧ skObj (.cons (strOf "race")
      (Json.obj (.cons (strOf "name") (.str (strOf "bernese"))
        (.cons (strOf "size") (.str (strOf "80cm")) .nil))) .nil) = true
    ∧ subObj
        (create_value (.cons (strOf "race")
          (Json.obj (.cons (strOf "name") (.str (strOf "bernese"))
            (.cons (strOf "size") (.str (strOf "80cm")) .nil))) .nil)
          [strOf "race.name"])
        (create_value (.cons (strOf "race")
          (Json.obj (.cons (strOf "name") (.str (strOf "bernese"))
            (.cons (strOf "size") (.str (strOf "80cm")) .nil))) .nil)
          ([strOf "race.name"] ++ [strOf "race"])) = true :=
  ⟨rfl, rfl,
   C3_amended_monotonicity
    (.cons (strOf "race")
      (Json.obj (.cons (strOf "name") (.str (strOf "bernese"))
        (.cons (strOf "size") (.str (strOf "80cm")) .nil))) .nil)
    [strOf "race.name"] [strOf "race"] rfl rfl⟩
